import Mathlib

/-!
Verification development for the CrackVault credential-recovery engine
(src/crack_vault.py).  The Python source is shallowly embedded: pure string
manipulation is translated to Lean functions over `String`/`List Char`, the
hand-rolled `HashMap` used as a deduplication set is modelled by the list of
its keys, the hand-rolled FIFO `Queue` by a Lean list (enqueue appends at the
back, `to_list` is the identity), wall-clock durations by a rational
parameter, and the cooperative stop flag by a boolean signal indexed by the
number of flag reads performed so far.  The installed `hashlib` primitives
are external collaborators and are modelled by an explicit parameter.
-/

namespace CrackVault

/-! ## Python string primitives (ASCII semantics, as used by the source) -/

/-- Python `str.upper()` on ASCII text: `Char.toUpper` on every character. -/
def pyUpper (s : String) : String := String.mk (s.data.map Char.toUpper)

/-- Python `str.lower()` on ASCII text: `Char.toLower` on every character. -/
def pyLower (s : String) : String := String.mk (s.data.map Char.toLower)

/-- Python `str.capitalize()`: first character upper-cased, the rest lower-cased. -/
def pyCapitalize (s : String) : String :=
  match s.data with
  | [] => ""
  | c :: rest => String.mk (Char.toUpper c :: rest.map Char.toLower)

/-- Python `str.swapcase()` on ASCII text. -/
def pySwapcase (s : String) : String :=
  String.mk (s.data.map (fun c =>
    if c.isLower then c.toUpper else if c.isUpper then c.toLower else c))

/-- Python `s[::-1]`: string reversal. -/
def pyReverse (s : String) : String := String.mk s.data.reverse

/-- Python `sep.join(s)` where `s` is iterated character by character,
as in `.join(kw)` of the keyword mutation generator. -/
def pyJoinChars (sep : Char) (s : String) : String :=
  String.mk (List.intersperse sep s.data)

/-- Python `str.strip()` restricted to whitespace characters:
drop whitespace from both ends. -/
def pyStrip (s : String) : String :=
  String.mk (((s.data.dropWhile Char.isWhitespace).reverse.dropWhile
    Char.isWhitespace).reverse)

/-- `needleIsPrefix needle hay`: does `needle` occur at the start of `hay`? -/
def needleIsPrefix : List Char → List Char → Bool
  | [], _ => true
  | _ :: _, [] => false
  | a :: as, b :: bs => a == b && needleIsPrefix as bs

/-- Python `needle in hay` on strings: substring containment.  The empty
needle is contained in every string, as in Python. -/
def containsSub (needle : List Char) : List Char → Bool
  | [] => needleIsPrefix needle []
  | c :: t => needleIsPrefix needle (c :: t) || containsSub needle t

/-- Python `needle in hay` lifted to `String`. -/
def strContains (hay needle : String) : Bool := containsSub needle.data hay.data

/-! ## HashEngine (src/crack_vault.py lines 220-254)

`HashEngine.ALGORITHMS` is a `HashMap` holding the supported algorithm names
with their fixed hexadecimal digest lengths; it is modelled by the
association list in insertion order (the map keys are exactly these twelve
names, each present once). -/

/-- The twelve supported algorithms with their fixed hex-digest lengths,
from `HashEngine._init_algorithms`. -/
def algorithms : List (String × Nat) :=
  [("md5", 32), ("sha1", 40), ("sha224", 56), ("sha256", 64),
   ("sha384", 96), ("sha512", 128), ("sha3_224", 56), ("sha3_256", 64),
   ("sha3_384", 96), ("sha3_512", 128), ("blake2b", 128), ("blake2s", 64)]

/-- `HashEngine.identify_hash`: every supported algorithm whose fixed digest
length equals the length of the stripped input.  The Python loop walks the
`ALGORITHMS` map and appends each matching name; only the resulting set of
names is relevant to the claims, so the table order is used. -/
def identify_hash (hashStr : String) : List String :=
  ((algorithms.filter (fun p => p.2 == (pyStrip hashStr).length)).map Prod.fst)

/-- Outcome of `HashEngine.compute`: a returned digest string, the explicit
`None` ("unavailable") signal, or an exception escaping the call. -/
inductive ComputeOutcome where
  | digest (hex : String)
  | unavailable
  | raised
deriving DecidableEq

/-- One installed hashlib constructor, as seen by `compute`: feeding it the
UTF-8 bytes of a text and calling `hexdigest()` with no argument either
returns a hex string (`some`) or raises (`none`, e.g. the SHAKE constructors
whose `hexdigest` requires a length argument). -/
def InstalledPrim : Type := String → Option String

/-- `HashEngine.compute(text, algo)`:
`fn = getattr(hashlib, algo, None); if fn is None: return None;
return fn(text.encode()).hexdigest()`.  The installed hashlib module is an
external collaborator and is passed in as the map from attribute name to
constructor (`none` when the module has no such attribute). -/
def compute (installed : String → Option InstalledPrim)
    (text algo : String) : ComputeOutcome :=
  match installed algo with
  | none => .unavailable
  | some fn =>
      match fn text with
      | some hex => .digest hex
      | none => .raised

/-- Is every character of `s` a lowercase hexadecimal digit? -/
def isLowerHex (s : String) : Bool :=
  s.data.all (fun c => c.isDigit || ('a' ≤ c && c ≤ 'f'))

/-- Contract of a standard installed hashlib module, from the spec (§6, §4.1)
and the Python hashlib documentation: every one of the twelve supported
constructors is present and produces lowercase hex digests of the tabled
fixed length, and the `shake_128` constructor is also always present but its
parameterless `hexdigest()` call raises. -/
def ConformingInstall (installed : String → Option InstalledPrim) : Prop :=
  (∀ p ∈ algorithms, ∃ fn, installed p.1 = some fn ∧
      ∀ t, ∃ hex, fn t = some hex ∧ hex.length = p.2 ∧ isLowerHex hex = true) ∧
  (∃ fn, installed "shake_128" = some fn ∧ ∀ t, fn t = none)

/-- A concrete model of the installed hashlib module: the twelve supported
constructors are present (their digest values are external, so fixed-length
placeholder digests of `0` characters stand in for them — only availability,
length and hex-ness matter to the claims), the SHAKE constructors are
present but raise on a parameterless `hexdigest()`, and every other name is
absent.  This is the smallest installation satisfying `ConformingInstall`
that the counterexamples need. -/
def hashlibModel : String → Option InstalledPrim := fun name =>
  match algorithms.find? (fun p => p.1 == name) with
  | some p => some (fun _ => some (String.mk (List.replicate p.2 '0')))
  | none =>
      if name == "shake_128" || name == "shake_256" then
        some (fun _ => none)
      else none

/-! ## KeywordFilter (src/crack_vault.py lines 261-370)

The deduplication `HashMap` named `seen` is modelled by the list of its keys
(`contains` is membership, `put` inserts the key), and the `Queue` of
emitted candidates by a list with `enqueue` appending at the back. -/

/-- `KeywordFilter._strip_specials`: keep alphanumeric characters, lower-cased. -/
def strip_specials (word : String) : String :=
  pyLower (String.mk (word.data.filter Char.isAlphanum))

/-- The `specials` list of `_generate_keyword_mutations`. -/
def kfSpecials : List String :=
  ["!", "@", "#", "$", "%", "&", "*", ".", "-", "_", "~", "+", "="]

/-- The `suffixes` list of `_generate_keyword_mutations`. -/
def kfSuffixList : List String :=
  ["", "1", "12", "123", "1234", "!", "!!", "@", "#", "$",
   "01", "99", "2024", "2025", "2026", "007", "69", "666",
   "0", "00", "11", "22", "33", "44", "55", "77", "88",
   "!@", "!@#", "@!", "#1", "$1", "1!", "123!", "1234!"]

/-- The `prefixes` list of `_generate_keyword_mutations`. -/
def kfPrefixList : List String :=
  ["", "!", "@", "#", "$", "1", "123", "!@", "!@#"]

/-- The leet substitution map of the keyword mutation generator
(`a→@ e→3 i→1 o→0 s→$ t→7 l→1 g→9 b→8`), applied character-wise. -/
def leetChar (c : Char) : Char :=
  if c = 'a' then '@' else if c = 'e' then '3' else if c = 'i' then '1'
  else if c = 'o' then '0' else if c = 's' then '$' else if c = 't' then '7'
  else if c = 'l' then '1' else if c = 'g' then '9' else if c = 'b' then '8'
  else c

/-- The leet form built by both mutation generators: leet substitution over
the lower-cased word. -/
def pyLeet (s : String) : String := String.mk ((pyLower s).data.map leetChar)

/-- The `bases` list built for one keyword in `_generate_keyword_mutations`:
identity, upper, capitalized, swapped case, reversed, doubled, then the leet
form and its capitalization, then hyphen/dot/underscore joined spellings. -/
def kfBases (kw : String) : List String :=
  [kw, pyUpper kw, pyCapitalize kw, pySwapcase kw, pyReverse kw, kw ++ kw,
   pyLeet kw, pyCapitalize (pyLeet kw),
   pyJoinChars '-' kw, pyJoinChars '.' kw, pyJoinChars '_' kw]

/-- The candidates generated for one base string, in loop order: every
`p + b + s` with the suffix loop outside the prefix loop, then the three
special-character wrappings for every special character. -/
def kfBaseBlock (b : String) : List String :=
  (kfSuffixList.flatMap (fun s => kfPrefixList.map (fun p => p ++ b ++ s)))
    ++ (kfSpecials.flatMap (fun sp => [sp ++ b, b ++ sp, sp ++ b ++ sp]))

/-- All single-keyword candidates of `_generate_keyword_mutations`, in
generation order and before deduplication. -/
def singleRaw (keywords : List String) : List String :=
  keywords.flatMap (fun kw => (kfBases kw).flatMap kfBaseBlock)

/-- The separator list of the multi-keyword combination loop. -/
def comboSeps : List String :=
  ["", " ", "_", "-", ".", "!", "@", "#", "1", "123"]

/-- The suffix list of the multi-keyword concatenation loop. -/
def comboSufs : List String :=
  ["", "1", "123", "!", "@", "#", "2025", "2026"]

/-- The combinations generated for one ordered keyword pair `(a, b)`:
for each separator, the five separator combinations in lambda order followed
by the concatenation loop (which sits inside the separator loop in the
source, so it is replayed for every separator). -/
def comboPairBlock (a b : String) : List String :=
  comboSeps.flatMap (fun sep =>
    [a ++ sep ++ b,
     pyCapitalize a ++ sep ++ b,
     a ++ sep ++ pyCapitalize b,
     pyCapitalize a ++ sep ++ pyCapitalize b,
     pyUpper a ++ sep ++ pyUpper b]
    ++ comboSufs.flatMap (fun suf =>
        [a ++ b ++ suf, pyCapitalize a ++ pyCapitalize b ++ suf]))

/-- All multi-keyword candidates of `_generate_keyword_mutations`, in
generation order and before deduplication: ordered pairs `(i, j)` with
`i ≠ j`, outer loop over `i`, generated only when at least two keywords
are present. -/
def multiRaw (keywords : List String) : List String :=
  if 2 ≤ keywords.length then
    (List.range keywords.length).flatMap (fun i =>
      (List.range keywords.length).flatMap (fun j =>
        if i = j then []
        else comboPairBlock (keywords.getD i "") (keywords.getD j "")))
  else []

/-- The shared deduplication pass: candidates are appended to the output in
first-seen order, and the `seen` index only grows.  `dedupRun seen acc input`
returns the final index and the extended output list. -/
def dedupRun : List String → List String → List String → List String × List String
  | seen, acc, [] => (seen, acc)
  | seen, acc, c :: rest =>
      if c ∈ seen then dedupRun seen acc rest
      else dedupRun (c :: seen) (acc ++ [c]) rest

/-- `KeywordFilter._generate_keyword_mutations`: returns the pair
`(combination queue, single-keyword queue)`.  The single-keyword stream is
generated first; the multi-keyword stream is deduplicated against the same
`seen` index, continuing where the single stream left it. -/
def generateKeywordMutations (keywords : List String) :
    List String × List String :=
  let p1 := dedupRun [] [] (singleRaw keywords)
  let p2 := dedupRun p1.1 [] (multiRaw keywords)
  (p2.2, p1.2)

/-- The keyword match test of `filter_wordlist`: some keyword is a substring
of the lower-cased word or of its alphanumeric-stripped form. -/
def matchesKeyword (keywords : List String) (word : String) : Bool :=
  keywords.any (fun kw =>
    strContains (pyLower word) kw || strContains (strip_specials word) kw)

/-- The word-scanning loop of `filter_wordlist`: words already in the `seen`
index are skipped, keyword-matching words are appended to the priority queue
(and recorded in `seen`), all others are appended to the remainder queue
(without touching `seen`). -/
def wordLoop (keywords : List String) :
    List String → List String → List String → List String →
      List String × List String
  | _, priority, remaining, [] => (priority, remaining)
  | seen, priority, remaining, w :: ws =>
      if w ∈ seen then wordLoop keywords seen priority remaining ws
      else if matchesKeyword keywords w then
        wordLoop keywords (w :: seen) (priority ++ [w]) remaining ws
      else wordLoop keywords seen priority (remaining ++ [w]) ws

/-- `KeywordFilter.filter_wordlist`: emit the deduplicated combination
stream, then the single-keyword stream, into the priority queue (against a
fresh `seen` index), then partition the word list. -/
def filter_wordlist (keywords words : List String) :
    List String × List String :=
  let gen := generateKeywordMutations keywords
  let ph1 := dedupRun [] [] gen.1
  let ph2 := dedupRun ph1.1 ph1.2 gen.2
  wordLoop keywords ph2.1 ph2.2 [] words

/-! ## Attack modules (src/crack_vault.py lines 377-634)

Common modelling conventions for the attack loops:
* `hash : String → Option String` stands for `HashEngine.compute(·, algo)`
  with the chosen algorithm (Python returns a digest string or `None`);
  the comparison `computed == target.lower().strip()` is `Option` equality,
  so a `None` digest never matches, as in Python.
* `sig : Nat → Bool` is the value read from the cooperative stop flag
  `self.stopped` at the n-th flag read of the run (reads are counted from 0
  in program order).  A run with no `stop()` call is `fun _ => false`.
* `dur : ℚ` is the wall-clock duration `time.time() - start` observed at the
  single terminal time measurement the taken path performs; rationals stand
  in for the float arithmetic of the rate computation.
* the word list file is `Option (List String)`: `none` models
  `FileNotFoundError`, `some words` the stripped non-blank lines. -/

/-- `AttackResult` with its `__init__` field order; `speed` is the rate. -/
structure AttackResult where
  found : Bool
  password : Option String
  attempts : Nat
  elapsed : ℚ
  speed : ℚ
  method : String
deriving DecidableEq

/-- A fresh `AttackResult()`. -/
def initResult : AttackResult :=
  ⟨false, none, 0, 0, 0, ""⟩

/-- The epsilon of `attempts / max(elapsed, 0.001)`. -/
def qeps : ℚ := 1 / 1000

/-- The rate computation `attempts / max(elapsed, 0.001)` shared by every
terminal path that populates timing. -/
def rateOf (attempts : Nat) (elapsed : ℚ) : ℚ :=
  (attempts : ℚ) / max elapsed qeps

/-- The target normalization `target_hash.lower().strip()` applied before
every comparison. -/
def normTarget (target : String) : String := pyStrip (pyLower target)

/-- The candidate ordering shared by the wordlist-driven engines:
`if keyword_filter and keyword_filter.keywords:` reorder through
`filter_wordlist`, else use the word list verbatim.  An absent filter and an
empty keyword list are both modelled by `keywords = []`. -/
def orderedWords (keywords words : List String) : List String :=
  match keywords with
  | [] => words
  | _ :: _ =>
      let pr := filter_wordlist keywords words
      pr.1 ++ pr.2

/-! ### WordlistAttack (lines 387-435) -/

/-- The candidate loop of `WordlistAttack.crack_hash`, also returning the
list of candidates actually hashed, in order.  The stop flag is read once
per candidate before hashing; `attempts` equals the number of reads already
made, so the read at a state with `a` attempts is read number `a`. -/
def wordlistLoop (hash : String → Option String) (tn : String)
    (sig : Nat → Bool) (dur : ℚ) :
    List String → Nat → AttackResult × List String
  | [], a => (⟨false, none, a, dur, rateOf a dur, "Wordlist Attack"⟩, [])
  | w :: ws, a =>
      if sig a then
        (⟨false, none, a, dur, rateOf a dur, "Wordlist Attack"⟩, [])
      else if hash w == some tn then
        (⟨true, some w, a + 1, dur, rateOf (a + 1) dur, "Wordlist Attack"⟩, [w])
      else
        let rest := wordlistLoop hash tn sig dur ws (a + 1)
        (rest.1, w :: rest.2)

/-- `WordlistAttack.crack_hash`.  On `FileNotFoundError` the method label is
overwritten and the fresh result is returned at once, timing untouched. -/
def wordlistCrackHash (hash : String → Option String) (sig : Nat → Bool)
    (dur : ℚ) (target : String) (fileWords : Option (List String))
    (keywords : List String) : AttackResult × List String :=
  match fileWords with
  | none => ({ initResult with method := "Error: Wordlist not found" }, [])
  | some words =>
      wordlistLoop hash (normTarget target) sig dur
        (orderedWords keywords words) 0

/-! ### BruteForceAttack (lines 438-471) -/

/-- `itertools.product(charset, repeat=n)`: all `n`-tuples over `charset`,
rightmost position varying fastest. -/
def pyProduct (charset : List Char) : Nat → List (List Char)
  | 0 => [[]]
  | n + 1 => charset.flatMap (fun c => (pyProduct charset n).map (c :: ·))

/-- The full brute-force candidate sequence: for each length of
`range(min_len, max_len + 1)`, every product tuple joined to a string. -/
def bruteCandidates (charset : List Char) (minLen maxLen : Nat) : List String :=
  (List.range' minLen (maxLen + 1 - minLen)).flatMap
    (fun len => (pyProduct charset len).map String.mk)

/-- The candidate loop of `BruteForceAttack.crack_hash` over the flattened
candidate sequence, also returning the candidates hashed, in order.  The
stop flag is read once per candidate, before joining and hashing it. -/
def bruteLoop (hash : String → Option String) (tn : String)
    (sig : Nat → Bool) (dur : ℚ) :
    List String → Nat → AttackResult × List String
  | [], a => (⟨false, none, a, dur, rateOf a dur, "Brute Force Attack"⟩, [])
  | w :: ws, a =>
      if sig a then
        (⟨false, none, a, dur, rateOf a dur, "Brute Force Attack"⟩, [])
      else if hash w == some tn then
        (⟨true, some w, a + 1, dur, rateOf (a + 1) dur,
          "Brute Force Attack"⟩, [w])
      else
        let rest := bruteLoop hash tn sig dur ws (a + 1)
        (rest.1, w :: rest.2)

/-- `BruteForceAttack.crack_hash`. -/
def bruteForceCrackHash (hash : String → Option String) (sig : Nat → Bool)
    (dur : ℚ) (target : String) (charset : List Char) (minLen maxLen : Nat) :
    AttackResult × List String :=
  bruteLoop hash (normTarget target) sig dur
    (bruteCandidates charset minLen maxLen) 0

/-! ### RuleBasedAttack (lines 474-555) -/

/-- The `suffixes` list of `RuleBasedAttack.generate_mutations`. -/
def rbSuffixList : List String :=
  ["1", "12", "123", "1234", "!", "!!", "@", "#", "01", "99",
   "2024", "2025", "007", "69", "666"]

/-- The `prefixes` list of `RuleBasedAttack.generate_mutations`. -/
def rbPrefixList : List String := ["!", "@", "#", "1", "123"]

/-- `RuleBasedAttack.generate_mutations`: the per-word mutation queue, in
enqueue order, with no deduplication.  The leet map of this method is the
same character substitution as the keyword generator, applied to the
lower-cased word. -/
def generateMutations (word : String) : List String :=
  [word, pyUpper word, pyLower word, pyCapitalize word, pySwapcase word,
   pyReverse word, word ++ word, pyLeet word]
  ++ rbSuffixList.flatMap (fun s => [word ++ s, pyCapitalize word ++ s])
  ++ rbPrefixList.map (fun p => p ++ word)

/-- The inner per-mutation loop of `RuleBasedAttack.crack_hash`: dequeue
mutations until the queue is empty, a match is found, or the stop flag reads
true.  State `(a, c)` is (attempts made, flag reads made); the result is
`(found result if any, attempts, flag reads)`. -/
def ruleInner (hash : String → Option String) (tn : String)
    (sig : Nat → Bool) (dur : ℚ) :
    List String → Nat → Nat → Option AttackResult × Nat × Nat
  | [], a, c => (none, a, c)
  | m :: ms, a, c =>
      if sig c then (none, a, c + 1)
      else if hash m == some tn then
        (some ⟨true, some m, a + 1, dur, rateOf (a + 1) dur,
          "Rule-Based Attack"⟩, a + 1, c + 1)
      else ruleInner hash tn sig dur ms (a + 1) (c + 1)

/-- The outer per-word loop of `RuleBasedAttack.crack_hash`: one stop-flag
read per source word, then the inner loop over that word, with the read
counter threaded through both loops. -/
def ruleOuter (hash : String → Option String) (tn : String)
    (sig : Nat → Bool) (dur : ℚ) :
    List String → Nat → Nat → AttackResult × Nat
  | [], a, c => (⟨false, none, a, dur, rateOf a dur, "Rule-Based Attack"⟩, c)
  | w :: ws, a, c =>
      if sig c then
        (⟨false, none, a, dur, rateOf a dur, "Rule-Based Attack"⟩, c + 1)
      else
        match ruleInner hash tn sig dur (generateMutations w) a (c + 1) with
        | (some r, _, cNext) => (r, cNext)
        | (none, aNext, cNext) => ruleOuter hash tn sig dur ws aNext cNext

/-- `RuleBasedAttack.crack_hash`. -/
def ruleCrackHash (hash : String → Option String) (sig : Nat → Bool)
    (dur : ℚ) (target : String) (fileWords : Option (List String))
    (keywords : List String) : AttackResult :=
  match fileWords with
  | none => { initResult with method := "Error: Wordlist not found" }
  | some words =>
      (ruleOuter hash (normTarget target) sig dur
        (orderedWords keywords words) 0 0).1

/-! ### ZipCracker (lines 558-637)

The archive primitive is external: `tryPwd w = true` models a successful
`extractall` with password `w`, `false` models any raised extraction error
(swallowed and counted as a non-match).  A failed `zipfile.ZipFile` open is
`zipErr = some msg`, giving the `f"Error: {e}"` label. -/

/-- The candidate loop of `ZipCracker.crack`: the stop flag is read once per
word; `attempts` is incremented before the extraction attempt. -/
def zipLoop (tryPwd : String → Bool) (sig : Nat → Bool) (dur : ℚ) :
    List String → Nat → AttackResult
  | [], a => ⟨false, none, a, dur, rateOf a dur, "ZIP File Crack"⟩
  | w :: ws, a =>
      if sig a then ⟨false, none, a, dur, rateOf a dur, "ZIP File Crack"⟩
      else if tryPwd w then
        ⟨true, some w, a + 1, dur, rateOf (a + 1) dur, "ZIP File Crack"⟩
      else zipLoop tryPwd sig dur ws (a + 1)

/-- `ZipCracker.crack`. -/
def zipCrack (zipErr : Option String) (fileWords : Option (List String))
    (tryPwd : String → Bool) (keywords : List String) (sig : Nat → Bool)
    (dur : ℚ) : AttackResult :=
  match zipErr with
  | some msg => { initResult with method := "Error: " ++ msg }
  | none =>
      match fileWords with
      | none => { initResult with method := "Error: Wordlist not found" }
      | some words =>
          zipLoop tryPwd sig dur (orderedWords keywords words) 0

/-! ## Auxiliary notions used by the statements -/

/-- The enumeration order claimed for brute force: shorter candidates first,
and between candidates of equal length, lexicographic order induced by
position in the charset. -/
def charsetLt (charset : List Char) (s t : String) : Prop :=
  s.length < t.length ∨
    (s.length = t.length ∧
      List.Lex (fun a b => charset.indexOf a < charset.indexOf b) s.data t.data)

/-- A valid reading history of the stop flag: `stop()` only ever sets the
flag, so once a read returns true every later read does too. -/
def StopMono (sig : Nat → Bool) : Prop :=
  ∀ i j, i ≤ j → sig i = true → sig j = true

/-! ## Helper lemmas -/

theorem wordLoop_no_keywords (p r : List String) :
    ∀ ws, wordLoop [] [] p r ws = (p, r ++ ws)
  | [] => by simp [wordLoop]
  | w :: ws => by
      have hm : matchesKeyword [] w = false := rfl
      simp only [wordLoop, List.not_mem_nil, if_false, hm]
      rw [wordLoop_no_keywords (p := p) (r := r ++ [w]) ws]
      simp

theorem generateMutations_length (w : String) :
    (generateMutations w).length = 43 := rfl

/-! ## Claims C4, C9, C10 -/

/-- C4: with an empty keyword set, `filter_wordlist` returns an empty
priority sequence and the word list unchanged (in order, duplicates
included) as the remainder, and the wordlist-driven attack engines search
the word list verbatim, with no reordering and no deduplication pass. -/
theorem empty_keywords_verbatim (words : List String) :
    filter_wordlist [] words = ([], words) ∧ orderedWords [] words = words := by
  constructor
  · show wordLoop [] [] [] [] words = ([], words)
    rw [wordLoop_no_keywords]
    simp
  · rfl

/-- C9: an empty length range (`min_len > max_len`) makes
`BruteForceAttack.crack_hash` try no candidate at all and report an ordinary
not-found result (method label `"Brute Force Attack"`, not an error):
`found = False`, `password = None`, `attempts = 0`. -/
theorem empty_range_brute_force (hash : String → Option String)
    (sig : Nat → Bool) (dur : ℚ) (target : String) (charset : List Char)
    (minLen maxLen : Nat) (hlt : maxLen < minLen) :
    (bruteForceCrackHash hash sig dur target charset minLen maxLen).1.found
        = false ∧
    (bruteForceCrackHash hash sig dur target charset minLen maxLen).1.password
        = none ∧
    (bruteForceCrackHash hash sig dur target charset minLen maxLen).1.attempts
        = 0 ∧
    (bruteForceCrackHash hash sig dur target charset minLen maxLen).1.method
        = "Brute Force Attack" ∧
    (bruteForceCrackHash hash sig dur target charset minLen maxLen).2 = [] := by
  have hcnt : maxLen + 1 - minLen = 0 := by omega
  have hc : bruteCandidates charset minLen maxLen = [] := by
    simp [bruteCandidates, hcnt]
  simp [bruteForceCrackHash, hc, bruteLoop]

/-- C9 witness at `min_len = 3 > 1 = max_len`. -/
theorem empty_range_brute_force_witness :
    (1 < 3) ∧
    ((bruteForceCrackHash (fun w => some w) (fun _ => false) 1 "ba"
        ['a', 'b'] 3 1).1.attempts = 0 ∧
      (bruteForceCrackHash (fun w => some w) (fun _ => false) 1 "ba"
        ['a', 'b'] 3 1).1.method = "Brute Force Attack") :=
  ⟨by decide,
    (empty_range_brute_force (fun w => some w) (fun _ => false) 1 "ba"
      ['a', 'b'] 3 1 (by decide)).2.2.1,
    (empty_range_brute_force (fun w => some w) (fun _ => false) 1 "ba"
      ['a', 'b'] 3 1 (by decide)).2.2.2.1⟩

/-- C10: `RuleBasedAttack.generate_mutations` always yields exactly 43
candidates per word, and the queue is not deduplicated: for the word `"1"`
(its own lower, upper and capitalized form) the same candidate occurs more
than once. -/
theorem rule_mutations_count_and_dup :
    (∀ w : String, (generateMutations w).length = 43) ∧
    ¬ (generateMutations "1").Nodup :=
  ⟨generateMutations_length, by decide⟩

/-! ## Deduplication pass lemmas -/

theorem dedupRun_seen_mono (x : String) :
    ∀ input seen acc, x ∈ seen → x ∈ (dedupRun seen acc input).1
  | [], _, _, hx => hx
  | c :: rest, seen, acc, hx => by
      by_cases hc : c ∈ seen
      · simpa [dedupRun, hc] using dedupRun_seen_mono x rest seen acc hx
      · simpa [dedupRun, hc] using
          dedupRun_seen_mono x rest (c :: seen) (acc ++ [c])
            (List.mem_cons_of_mem c hx)

theorem dedupRun_acc_mono (x : String) :
    ∀ input seen acc, x ∈ acc → x ∈ (dedupRun seen acc input).2
  | [], _, _, hx => hx
  | c :: rest, seen, acc, hx => by
      by_cases hc : c ∈ seen
      · simpa [dedupRun, hc] using dedupRun_acc_mono x rest seen acc hx
      · simpa [dedupRun, hc] using
          dedupRun_acc_mono x rest (c :: seen) (acc ++ [c])
            (List.mem_append_left _ hx)

/-- Every input candidate ends up in the final `seen` index. -/
theorem dedupRun_input_seen (x : String) :
    ∀ input seen acc, x ∈ input → x ∈ (dedupRun seen acc input).1
  | c :: rest, seen, acc, hx => by
      by_cases hc : c ∈ seen
      · rcases List.mem_cons.mp hx with rfl | hx
        · simpa [dedupRun, hc] using dedupRun_seen_mono x rest seen acc hc
        · simpa [dedupRun, hc] using dedupRun_input_seen x rest seen acc hx
      · rcases List.mem_cons.mp hx with rfl | hx
        · simpa [dedupRun, hc] using
            dedupRun_seen_mono x rest (x :: seen) (acc ++ [x])
              (List.mem_cons_self x seen)
        · simpa [dedupRun, hc] using
            dedupRun_input_seen x rest (c :: seen) (acc ++ [c]) hx

/-- Every input candidate not already indexed is emitted. -/
theorem dedupRun_input_out (x : String) :
    ∀ input seen acc, x ∈ input → x ∈ seen ∨ x ∈ (dedupRun seen acc input).2
  | c :: rest, seen, acc, hx => by
      by_cases hc : c ∈ seen
      · rcases List.mem_cons.mp hx with rfl | hx
        · exact Or.inl hc
        · simpa [dedupRun, hc] using dedupRun_input_out x rest seen acc hx
      · rcases List.mem_cons.mp hx with rfl | hx
        · refine Or.inr ?_
          simpa [dedupRun, hc] using
            dedupRun_acc_mono x rest (x :: seen) (acc ++ [x])
              (List.mem_append_right _ (List.mem_singleton.mpr rfl))
        · rcases dedupRun_input_out x rest (c :: seen) (acc ++ [c]) hx with
            hs | ho
          · rcases List.mem_cons.mp hs with rfl | hs
            · refine Or.inr ?_
              simpa [dedupRun, hc] using
                dedupRun_acc_mono x rest (x :: seen) (acc ++ [x])
                  (List.mem_append_right _ (List.mem_singleton.mpr rfl))
            · exact Or.inl hs
          · refine Or.inr ?_
            simpa [dedupRun, hc] using ho

/-- The final `seen` index only holds prior index entries and inputs. -/
theorem dedupRun_seen_src (x : String) :
    ∀ input seen acc, x ∈ (dedupRun seen acc input).1 →
      x ∈ seen ∨ x ∈ input
  | [], _, _, hx => Or.inl hx
  | c :: rest, seen, acc, hx => by
      by_cases hc : c ∈ seen
      · rcases dedupRun_seen_src x rest seen acc
          (by simpa [dedupRun, hc] using hx) with hs | hi
        · exact Or.inl hs
        · exact Or.inr (List.mem_cons_of_mem c hi)
      · rcases dedupRun_seen_src x rest (c :: seen) (acc ++ [c])
          (by simpa [dedupRun, hc] using hx) with hs | hi
        · rcases List.mem_cons.mp hs with rfl | hs
          · exact Or.inr (List.mem_cons_self _ _)
          · exact Or.inl hs
        · exact Or.inr (List.mem_cons_of_mem c hi)

/-- Emitted candidates come from the prior output or are fresh inputs. -/
theorem dedupRun_out_src (x : String) :
    ∀ input seen acc, x ∈ (dedupRun seen acc input).2 →
      x ∈ acc ∨ (x ∈ input ∧ x ∉ seen)
  | [], _, _, hx => Or.inl hx
  | c :: rest, seen, acc, hx => by
      by_cases hc : c ∈ seen
      · rcases dedupRun_out_src x rest seen acc
          (by simpa [dedupRun, hc] using hx) with ha | ⟨hi, hs⟩
        · exact Or.inl ha
        · exact Or.inr ⟨List.mem_cons_of_mem c hi, hs⟩
      · rcases dedupRun_out_src x rest (c :: seen) (acc ++ [c])
          (by simpa [dedupRun, hc] using hx) with ha | ⟨hi, hs⟩
        · rcases List.mem_append.mp ha with ha | ha
          · exact Or.inl ha
          · have : x = c := List.mem_singleton.mp ha
            subst this
            exact Or.inr ⟨List.mem_cons_self _ _, hc⟩
        · exact Or.inr
            ⟨List.mem_cons_of_mem c hi,
             fun hxs => hs (List.mem_cons_of_mem c hxs)⟩

/-- Everything emitted is indexed. -/
theorem dedupRun_out_seen (x : String) :
    ∀ input seen acc, (∀ y ∈ acc, y ∈ seen) →
      x ∈ (dedupRun seen acc input).2 → x ∈ (dedupRun seen acc input).1
  | [], _, _, hacc, hx => hacc x hx
  | c :: rest, seen, acc, hacc, hx => by
      by_cases hc : c ∈ seen
      · simpa [dedupRun, hc] using
          dedupRun_out_seen x rest seen acc hacc
            (by simpa [dedupRun, hc] using hx)
      · have hacc2 : ∀ y ∈ acc ++ [c], y ∈ c :: seen := by
          intro y hy
          rcases List.mem_append.mp hy with hy | hy
          · exact List.mem_cons_of_mem c (hacc y hy)
          · exact List.mem_singleton.mp hy ▸ List.mem_cons_self _ _
        have hrec := dedupRun_out_seen x rest (c :: seen) (acc ++ [c]) hacc2
          (by simpa [dedupRun, hc] using hx)
        simpa [dedupRun, hc] using hrec

/-- The output stays duplicate-free: a candidate is emitted at most once. -/
theorem dedupRun_nodup :
    ∀ input seen acc, acc.Nodup → (∀ y ∈ acc, y ∈ seen) →
      (dedupRun seen acc input).2.Nodup
  | [], _, _, hnd, _ => hnd
  | c :: rest, seen, acc, hnd, hacc => by
      by_cases hc : c ∈ seen
      · simpa [dedupRun, hc] using dedupRun_nodup rest seen acc hnd hacc
      · have hnd2 : (acc ++ [c]).Nodup := by
          refine List.Nodup.append hnd (List.nodup_singleton c) ?_
          intro y hy hy1
          exact hc (List.mem_singleton.mp hy1 ▸ hacc y hy)
        have hacc2 : ∀ y ∈ acc ++ [c], y ∈ c :: seen := by
          intro y hy
          rcases List.mem_append.mp hy with hy | hy
          · exact List.mem_cons_of_mem c (hacc y hy)
          · exact List.mem_singleton.mp hy ▸ List.mem_cons_self _ _
        have hrec := dedupRun_nodup rest (c :: seen) (acc ++ [c]) hnd2 hacc2
        simpa [dedupRun, hc] using hrec

/-! ## Claim C6 -/

/-- C6: one call to the mutation generator emits no duplicate across the two
returned streams (single-keyword queue first, then the multi-keyword
combination queue, deduplicated against the one shared index), and the
generator is deterministic in its keyword set. -/
theorem mutation_generator_nodup_deterministic (keywords : List String) :
    ((generateKeywordMutations keywords).2
        ++ (generateKeywordMutations keywords).1).Nodup ∧
    (∀ kws2, kws2 = keywords →
      generateKeywordMutations kws2 = generateKeywordMutations keywords) := by
  constructor
  · have hsq : (generateKeywordMutations keywords).2
        = (dedupRun [] [] (singleRaw keywords)).2 := rfl
    have hmq : (generateKeywordMutations keywords).1
        = (dedupRun (dedupRun [] [] (singleRaw keywords)).1 []
            (multiRaw keywords)).2 := rfl
    rw [hsq, hmq]
    refine List.Nodup.append ?_ ?_ ?_
    · exact dedupRun_nodup _ [] [] List.nodup_nil (by simp)
    · exact dedupRun_nodup _ _ [] List.nodup_nil (by simp)
    · intro x hx hx2
      rcases dedupRun_out_src x _ _ _ hx2 with ha | ⟨_, hs⟩
      · simp at ha
      · exact hs (dedupRun_out_seen x _ [] [] (by simp) hx)
  · intro kws2 h
    rw [h]

/-- C6 witness: the inner determinism hypothesis discharged at a concrete
keyword set. -/
theorem mutation_generator_nodup_deterministic_witness :
    generateKeywordMutations ["alpha"] = generateKeywordMutations ["alpha"] :=
  (mutation_generator_nodup_deterministic ["alpha"]).2 ["alpha"] rfl

/-! ## Hash engine lemmas and claims C2, C3 -/

theorem mem_identify_hash (h name : String) :
    name ∈ identify_hash h ↔ (name, (pyStrip h).length) ∈ algorithms := by
  unfold identify_hash
  constructor
  · intro hm
    rcases List.mem_map.mp hm with ⟨p, hp, rfl⟩
    rcases List.mem_filter.mp hp with ⟨hpa, hpl⟩
    have hlen : p.2 = (pyStrip h).length := by simpa using hpl
    rw [show (p.1, (pyStrip h).length) = p by rw [← hlen]]
    exact hpa
  · intro hm
    exact List.mem_map.mpr
      ⟨(name, (pyStrip h).length), List.mem_filter.mpr ⟨hm, by simp⟩, rfl⟩

theorem hashlibModel_conforming : ConformingInstall hashlibModel := by
  constructor
  · intro p hp
    fin_cases hp <;>
      exact ⟨_, rfl, fun t => ⟨_, rfl, by decide, by decide⟩⟩
  · exact ⟨fun _ => none, rfl, fun t => rfl⟩

/-- C2 counterexample: the claim asserts membership of `algo` in
`identify_hash h` whenever `len(h)` (unstripped) equals the fixed length of
`algo`.  The 32-character string of 31 letters and a trailing space has the
md5 length, but `identify_hash` measures the stripped input (31 characters)
and returns no match at all. -/
theorem identify_len_without_strip_cex :
    ("aaaaaaaaaaaaaaaaaaaaaaaaaaaaaaa ".length = 32 ∧
      ("md5", 32) ∈ algorithms) ∧
    "md5" ∉ identify_hash "aaaaaaaaaaaaaaaaaaaaaaaaaaaaaaa " ∧
    identify_hash "aaaaaaaaaaaaaaaaaaaaaaaaaaaaaaa " = [] := by
  refine ⟨⟨by decide, by decide⟩, by decide, by decide⟩

/-- C2 (amended): for every supported algorithm, `compute` yields a
lowercase hex digest of the tabled fixed length (under the contract of the
installed hashlib primitives), and `identify_hash h` returns exactly the
supported algorithms whose fixed length equals the length of the *stripped*
input — in particular it contains `algo` whenever `len(strip(h))` equals
the fixed length of `algo`, and it can contain several algorithms: at
length 64 it contains both `sha256` and `sha3_256`. -/
theorem compute_length_and_identify_exact
    (installed : String → Option InstalledPrim)
    (hconf : ConformingInstall installed) :
    (∀ algo len text, (algo, len) ∈ algorithms →
      ∃ hex, compute installed text algo = .digest hex ∧
        hex.length = len ∧ isLowerHex hex = true) ∧
    (∀ h name, name ∈ identify_hash h ↔
      (name, (pyStrip h).length) ∈ algorithms) ∧
    ("sha256" ∈ identify_hash (String.mk (List.replicate 64 'a')) ∧
      "sha3_256" ∈ identify_hash (String.mk (List.replicate 64 'a'))) := by
  refine ⟨?_, mem_identify_hash, by decide, by decide⟩
  intro algo len text hmem
  obtain ⟨fn, hfn, hdig⟩ := hconf.1 (algo, len) hmem
  obtain ⟨hex, hhex, hlen, hlow⟩ := hdig text
  exact ⟨hex, by simp [compute, hfn, hhex], hlen, hlow⟩

/-- C2 witness: the contract hypothesis discharged at the concrete hashlib
model, the digest-length conclusion taken at `sha256`. -/
theorem compute_length_and_identify_exact_witness :
    ConformingInstall hashlibModel ∧
    (∃ hex, compute hashlibModel "password" "sha256" = .digest hex ∧
      hex.length = 64 ∧ isLowerHex hex = true) :=
  ⟨hashlibModel_conforming,
    (compute_length_and_identify_exact hashlibModel
      hashlibModel_conforming).1 "sha256" 64 "password" (by decide)⟩

/-- C3 counterexample: the claim asserts that `compute` returns the
"unavailable" signal exactly for names outside the supported set of twelve.
But availability is checked against the installed hashlib module, which
always also provides `shake_128`; for that unsupported name, `compute`
delegates and the parameterless `hexdigest()` raises instead of returning
the signal. -/
theorem compute_unavailable_mismatch_cex :
    "shake_128" ∉ algorithms.map Prod.fst ∧
    compute hashlibModel "password" "shake_128" = .raised ∧
    compute hashlibModel "password" "shake_128" ≠ .unavailable :=
  ⟨by decide, rfl, by decide⟩

/-- C3 (amended): `compute` returns the explicit unavailable signal exactly
when the installed hashlib module has no attribute of the requested name;
every one of the twelve supported algorithms is installed and yields its
lowercase hex digest, but the installed set is strictly larger than the
supported set — for the installed-but-unsupported `shake_128` the call
raises rather than signalling unavailable. -/
theorem compute_unavailable_iff_not_installed
    (installed : String → Option InstalledPrim) (text algo : String) :
    (compute installed text algo = .unavailable ↔ installed algo = none) ∧
    (ConformingInstall installed → ∀ p ∈ algorithms,
      ∃ hex, compute installed text p.1 = .digest hex ∧
        hex.length = p.2 ∧ isLowerHex hex = true) ∧
    (ConformingInstall installed →
      compute installed text "shake_128" = .raised) := by
  refine ⟨?_, ?_, ?_⟩
  · cases hfn : installed algo with
    | none => simp [compute, hfn]
    | some fn =>
        cases hx : fn text <;> simp [compute, hfn, hx]
  · intro hconf p hp
    obtain ⟨fn, hfn, hdig⟩ := hconf.1 p hp
    obtain ⟨hex, hhex, hlen, hlow⟩ := hdig text
    exact ⟨hex, by simp [compute, hfn, hhex], hlen, hlow⟩
  · intro hconf
    obtain ⟨fn, hfn, hnone⟩ := hconf.2
    simp [compute, hfn, hnone text]

/-- C3 witness: instantiated at the concrete hashlib model, with the
contract hypotheses discharged there. -/
theorem compute_unavailable_iff_not_installed_witness :
    ConformingInstall hashlibModel ∧
    (compute hashlibModel "pw" "md4" = .unavailable ↔
      hashlibModel "md4" = none) ∧
    (∃ hex, compute hashlibModel "pw" "md5" = .digest hex ∧
      hex.length = 32 ∧ isLowerHex hex = true) ∧
    compute hashlibModel "pw" "shake_128" = .raised :=
  ⟨hashlibModel_conforming,
    (compute_unavailable_iff_not_installed hashlibModel "pw" "md4").1,
    (compute_unavailable_iff_not_installed hashlibModel "pw" "md5").2.1
      hashlibModel_conforming ("md5", 32) (by decide),
    (compute_unavailable_iff_not_installed hashlibModel "pw" "md5").2.2
      hashlibModel_conforming⟩

/-! ## Timing lemmas and claim C7 -/

theorem wordlistLoop_rate (hash : String → Option String) (tn : String)
    (sig : Nat → Bool) (dur : ℚ) :
    ∀ cs a,
      (wordlistLoop hash tn sig dur cs a).1.speed
        = rateOf (wordlistLoop hash tn sig dur cs a).1.attempts
            (wordlistLoop hash tn sig dur cs a).1.elapsed ∧
      (wordlistLoop hash tn sig dur cs a).1.elapsed = dur
  | [], a => ⟨rfl, rfl⟩
  | w :: ws, a => by
      cases hs : sig a
      · cases hm : hash w == some tn
        · simpa [wordlistLoop, hs, hm] using wordlistLoop_rate hash tn sig dur ws (a + 1)
        · simp [wordlistLoop, hs, hm]
      · simp [wordlistLoop, hs]

theorem bruteLoop_rate (hash : String → Option String) (tn : String)
    (sig : Nat → Bool) (dur : ℚ) :
    ∀ cs a,
      (bruteLoop hash tn sig dur cs a).1.speed
        = rateOf (bruteLoop hash tn sig dur cs a).1.attempts
            (bruteLoop hash tn sig dur cs a).1.elapsed ∧
      (bruteLoop hash tn sig dur cs a).1.elapsed = dur
  | [], a => ⟨rfl, rfl⟩
  | w :: ws, a => by
      cases hs : sig a
      · cases hm : hash w == some tn
        · simpa [bruteLoop, hs, hm] using bruteLoop_rate hash tn sig dur ws (a + 1)
        · simp [bruteLoop, hs, hm]
      · simp [bruteLoop, hs]

theorem zipLoop_rate (tryPwd : String → Bool) (sig : Nat → Bool) (dur : ℚ) :
    ∀ cs a,
      (zipLoop tryPwd sig dur cs a).speed
        = rateOf (zipLoop tryPwd sig dur cs a).attempts
            (zipLoop tryPwd sig dur cs a).elapsed ∧
      (zipLoop tryPwd sig dur cs a).elapsed = dur
  | [], a => ⟨rfl, rfl⟩
  | w :: ws, a => by
      cases hs : sig a
      · cases hm : tryPwd w
        · simpa [zipLoop, hs, hm] using zipLoop_rate tryPwd sig dur ws (a + 1)
        · simp [zipLoop, hs, hm]
      · simp [zipLoop, hs]

theorem ruleInner_rate (hash : String → Option String) (tn : String)
    (sig : Nat → Bool) (dur : ℚ) :
    ∀ ms a c r, (ruleInner hash tn sig dur ms a c).1 = some r →
      r.speed = rateOf r.attempts r.elapsed ∧ r.elapsed = dur
  | [], _, _, _, hr => by simp [ruleInner] at hr
  | m :: ms, a, c, r, hr => by
      cases hs : sig c
      · cases hm : hash m == some tn
        · exact ruleInner_rate hash tn sig dur ms (a + 1) (c + 1) r
            (by simpa [ruleInner, hs, hm] using hr)
        · have : r = ⟨true, some m, a + 1, dur, rateOf (a + 1) dur,
              "Rule-Based Attack"⟩ := by
            simpa [ruleInner, hs, hm] using hr.symm
          subst this
          exact ⟨rfl, rfl⟩
      · simp [ruleInner, hs] at hr

theorem ruleOuter_rate (hash : String → Option String) (tn : String)
    (sig : Nat → Bool) (dur : ℚ) :
    ∀ ws a c,
      (ruleOuter hash tn sig dur ws a c).1.speed
        = rateOf (ruleOuter hash tn sig dur ws a c).1.attempts
            (ruleOuter hash tn sig dur ws a c).1.elapsed ∧
      (ruleOuter hash tn sig dur ws a c).1.elapsed = dur
  | [], a, c => ⟨rfl, rfl⟩
  | w :: ws, a, c => by
      cases hs : sig c
      · rcases hinner : ruleInner hash tn sig dur (generateMutations w) a (c + 1)
          with ⟨ro, aN, cN⟩
        cases ro with
        | some r =>
            have hr := ruleInner_rate hash tn sig dur (generateMutations w)
              a (c + 1) r (by rw [hinner])
            simpa [ruleOuter, hs, hinner] using hr
        | none =>
            simpa [ruleOuter, hs, hinner] using
              ruleOuter_rate hash tn sig dur ws aN cN
      · simp [ruleOuter, hs]

/-- C7 counterexample: on the `Error` outcome (wordlist file missing) the
attack returns at once with `elapsed` still at its initialization value 0;
for a run whose measured duration is 5 the elapsed time is therefore not
populated.  (The rate equation itself happens to hold there, since
`attempts = 0`.) -/
theorem error_outcome_elapsed_not_populated_cex :
    (wordlistCrackHash (fun w => some w) (fun _ => false) 5 "t" none
        []).1.method = "Error: Wordlist not found" ∧
    (wordlistCrackHash (fun w => some w) (fun _ => false) 5 "t" none
        []).1.elapsed = 0 ∧
    (wordlistCrackHash (fun w => some w) (fun _ => false) 5 "t" none
        []).1.elapsed ≠ 5 :=
  ⟨rfl, rfl, by decide⟩

/-- C7 (amended): every terminal outcome of every engine satisfies
`rate = attempts / max(elapsed, 0.001)`, and the `Found`, `Exhausted` and
`Stopped` outcomes populate `elapsed` with the measured duration; the
`Error` outcomes return immediately with `elapsed = 0` (and `attempts = 0`,
so the rate equation still holds there vacuously). -/
theorem terminal_rate_and_elapsed (hash : String → Option String)
    (sig : Nat → Bool) (dur : ℚ) (target : String)
    (fw : Option (List String)) (keywords : List String)
    (zipErr : Option String) (tryPwd : String → Bool)
    (charset : List Char) (minLen maxLen : Nat) :
    ((wordlistCrackHash hash sig dur target fw keywords).1.speed
        = rateOf (wordlistCrackHash hash sig dur target fw keywords).1.attempts
            (wordlistCrackHash hash sig dur target fw keywords).1.elapsed) ∧
    (∀ ws, fw = some ws →
      (wordlistCrackHash hash sig dur target fw keywords).1.elapsed = dur) ∧
    ((zipCrack zipErr fw tryPwd keywords sig dur).speed
        = rateOf (zipCrack zipErr fw tryPwd keywords sig dur).attempts
            (zipCrack zipErr fw tryPwd keywords sig dur).elapsed) ∧
    (zipErr = none → ∀ ws, fw = some ws →
      (zipCrack zipErr fw tryPwd keywords sig dur).elapsed = dur) ∧
    ((bruteForceCrackHash hash sig dur target charset minLen maxLen).1.speed
        = rateOf
            (bruteForceCrackHash hash sig dur target charset minLen
              maxLen).1.attempts
            (bruteForceCrackHash hash sig dur target charset minLen
              maxLen).1.elapsed) ∧
    ((bruteForceCrackHash hash sig dur target charset minLen
        maxLen).1.elapsed = dur) ∧
    ((ruleCrackHash hash sig dur target fw keywords).speed
        = rateOf (ruleCrackHash hash sig dur target fw keywords).attempts
            (ruleCrackHash hash sig dur target fw keywords).elapsed) ∧
    (∀ ws, fw = some ws →
      (ruleCrackHash hash sig dur target fw keywords).elapsed = dur) := by
  refine ⟨?_, ?_, ?_, ?_, ?_, ?_, ?_, ?_⟩
  · cases fw with
    | none =>
        show (0 : ℚ) = rateOf 0 0
        simp [rateOf]
    | some ws => exact (wordlistLoop_rate hash _ sig dur _ 0).1
  · rintro ws rfl
    exact (wordlistLoop_rate hash _ sig dur _ 0).2
  · cases zipErr with
    | some msg =>
        show (0 : ℚ) = rateOf 0 0
        simp [rateOf]
    | none =>
        cases fw with
        | none =>
            show (0 : ℚ) = rateOf 0 0
            simp [rateOf]
        | some ws => exact (zipLoop_rate tryPwd sig dur _ 0).1
  · rintro rfl ws rfl
    exact (zipLoop_rate tryPwd sig dur _ 0).2
  · exact (bruteLoop_rate hash _ sig dur _ 0).1
  · exact (bruteLoop_rate hash _ sig dur _ 0).2
  · cases fw with
    | none =>
        show (0 : ℚ) = rateOf 0 0
        simp [rateOf]
    | some ws => exact (ruleOuter_rate hash _ sig dur _ 0 0).1
  · rintro ws rfl
    exact (ruleOuter_rate hash _ sig dur _ 0 0).2

/-- C7 witness: the implications instantiated and discharged on a concrete
non-error run of measured duration 2. -/
theorem terminal_rate_and_elapsed_witness :
    (some ["a"] : Option (List String)) = some ["a"] ∧
    (none : Option String) = none ∧
    (wordlistCrackHash (fun w => some w) (fun _ => false) 2 "a"
        (some ["a"]) []).1.elapsed = 2 ∧
    (zipCrack none (some ["a"]) (fun _ => false) [] (fun _ => false)
        2).elapsed = 2 ∧
    (ruleCrackHash (fun w => some w) (fun _ => false) 2 "a"
        (some ["a"]) []).elapsed = 2 :=
  ⟨rfl, rfl,
    (terminal_rate_and_elapsed (fun w => some w) (fun _ => false) 2 "a"
      (some ["a"]) [] none (fun _ => false) ['a'] 1 1).2.1 ["a"] rfl,
    (terminal_rate_and_elapsed (fun w => some w) (fun _ => false) 2 "a"
      (some ["a"]) [] none (fun _ => false) ['a'] 1 1).2.2.2.1 rfl ["a"] rfl,
    (terminal_rate_and_elapsed (fun w => some w) (fun _ => false) 2 "a"
      (some ["a"]) [] none (fun _ => false) ['a'] 1 1).2.2.2.2.2.2.2 ["a"] rfl⟩

/-! ## Stop-flag lemmas and claim C8 -/

theorem wordlistLoop_attempts_le (hash : String → Option String)
    (tn : String) (sig : Nat → Bool) (dur : ℚ) :
    ∀ cs a, (wordlistLoop hash tn sig dur cs a).1.attempts ≤ a + cs.length
  | [], a => by simp [wordlistLoop]
  | w :: ws, a => by
      cases hs : sig a
      · cases hm : hash w == some tn
        · have := wordlistLoop_attempts_le hash tn sig dur ws (a + 1)
          simp [wordlistLoop, hs, hm]
          omega
        · simp [wordlistLoop, hs, hm]
      · simp [wordlistLoop, hs]

theorem wordlistLoop_stop_le (hash : String → Option String) (tn : String)
    (sig : Nat → Bool) (dur : ℚ) (k : Nat) (hmono : StopMono sig)
    (hk : sig k = true) :
    ∀ cs a, (wordlistLoop hash tn sig dur cs a).1.attempts ≤ max a k
  | [], a => by
      simp [wordlistLoop]
  | w :: ws, a => by
      cases hs : sig a
      · have hak : a < k := by
          rcases Nat.lt_or_ge a k with h | h
          · exact h
          · have := hmono k a h hk
            rw [this] at hs
            simp at hs
        cases hm : hash w == some tn
        · have := wordlistLoop_stop_le hash tn sig dur k hmono hk ws (a + 1)
          simp [wordlistLoop, hs, hm]
          omega
        · simp [wordlistLoop, hs, hm]
          omega
      · simp [wordlistLoop, hs]

theorem bruteLoop_attempts_le (hash : String → Option String)
    (tn : String) (sig : Nat → Bool) (dur : ℚ) :
    ∀ cs a, (bruteLoop hash tn sig dur cs a).1.attempts ≤ a + cs.length
  | [], a => by simp [bruteLoop]
  | w :: ws, a => by
      cases hs : sig a
      · cases hm : hash w == some tn
        · have := bruteLoop_attempts_le hash tn sig dur ws (a + 1)
          simp [bruteLoop, hs, hm]
          omega
        · simp [bruteLoop, hs, hm]
      · simp [bruteLoop, hs]

theorem bruteLoop_stop_le (hash : String → Option String) (tn : String)
    (sig : Nat → Bool) (dur : ℚ) (k : Nat) (hmono : StopMono sig)
    (hk : sig k = true) :
    ∀ cs a, (bruteLoop hash tn sig dur cs a).1.attempts ≤ max a k
  | [], a => by
      simp [bruteLoop]
  | w :: ws, a => by
      cases hs : sig a
      · have hak : a < k := by
          rcases Nat.lt_or_ge a k with h | h
          · exact h
          · have := hmono k a h hk
            rw [this] at hs
            simp at hs
        cases hm : hash w == some tn
        · have := bruteLoop_stop_le hash tn sig dur k hmono hk ws (a + 1)
          simp [bruteLoop, hs, hm]
          omega
        · simp [bruteLoop, hs, hm]
          omega
      · simp [bruteLoop, hs]

theorem ruleInner_out_attempts (hash : String → Option String) (tn : String)
    (sig : Nat → Bool) (dur : ℚ) :
    ∀ ms a c r aN cN,
      ruleInner hash tn sig dur ms a c = (some r, aN, cN) →
        r.attempts = aN
  | [], a, c, r, aN, cN, h => by simp [ruleInner] at h
  | m :: ms, a, c, r, aN, cN, h => by
      cases hs : sig c
      · cases hm : hash m == some tn
        · exact ruleInner_out_attempts hash tn sig dur ms (a + 1) (c + 1)
            r aN cN (by simpa [ruleInner, hs, hm] using h)
        · simp [ruleInner, hs, hm] at h
          rcases h with ⟨h1, h2, _⟩
          rw [← h1, h2]
      · simp [ruleInner, hs] at h
      termination_by ms => ms.length

theorem ruleInner_attempts_le (hash : String → Option String) (tn : String)
    (sig : Nat → Bool) (dur : ℚ) :
    ∀ ms a c aN cN,
      (ruleInner hash tn sig dur ms a c).2 = (aN, cN) →
        aN ≤ a + ms.length
  | [], a, c, aN, cN, h => by
      simp [ruleInner] at h
      omega
  | m :: ms, a, c, aN, cN, h => by
      cases hs : sig c
      · cases hm : hash m == some tn
        · have := ruleInner_attempts_le hash tn sig dur ms (a + 1) (c + 1)
            aN cN (by simpa [ruleInner, hs, hm] using h)
          simp only [List.length_cons]
          omega
        · simp [ruleInner, hs, hm] at h
          simp only [List.length_cons]
          omega
      · simp [ruleInner, hs] at h
        simp only [List.length_cons]
        omega

theorem ruleInner_stop_le (hash : String → Option String) (tn : String)
    (sig : Nat → Bool) (dur : ℚ) (k : Nat) (hmono : StopMono sig)
    (hk : sig k = true) :
    ∀ ms a c aN cN,
      (ruleInner hash tn sig dur ms a c).2 = (aN, cN) →
        aN + (k - cN) ≤ a + (k - c)
  | [], a, c, aN, cN, h => by
      simp [ruleInner] at h
      omega
  | m :: ms, a, c, aN, cN, h => by
      cases hs : sig c
      · have hck : c < k := by
          rcases Nat.lt_or_ge c k with hlt | hge
          · exact hlt
          · have := hmono k c hge hk
            rw [this] at hs
            simp at hs
        cases hm : hash m == some tn
        · have := ruleInner_stop_le hash tn sig dur k hmono hk ms (a + 1)
            (c + 1) aN cN (by simpa [ruleInner, hs, hm] using h)
          omega
        · simp [ruleInner, hs, hm] at h
          omega
      · simp [ruleInner, hs] at h
        omega

theorem ruleOuter_attempts_le (hash : String → Option String) (tn : String)
    (sig : Nat → Bool) (dur : ℚ) :
    ∀ ws a c,
      (ruleOuter hash tn sig dur ws a c).1.attempts ≤ a + 43 * ws.length
  | [], a, c => by simp [ruleOuter]
  | w :: ws, a, c => by
      cases hs : sig c
      · rcases hinner : ruleInner hash tn sig dur (generateMutations w) a
          (c + 1) with ⟨ro, aN, cN⟩
        have hle : aN ≤ a + 43 := by
          have := ruleInner_attempts_le hash tn sig dur (generateMutations w)
            a (c + 1) aN cN (by rw [hinner])
          rw [generateMutations_length] at this
          exact this
        cases ro with
        | some r =>
            have hra : r.attempts = aN :=
              ruleInner_out_attempts hash tn sig dur (generateMutations w)
                a (c + 1) r aN cN hinner
            simp [ruleOuter, hs, hinner, hra]
            omega
        | none =>
            have := ruleOuter_attempts_le hash tn sig dur ws aN cN
            simp [ruleOuter, hs, hinner]
            omega
      · simp [ruleOuter, hs]

theorem ruleOuter_stop_le (hash : String → Option String) (tn : String)
    (sig : Nat → Bool) (dur : ℚ) (k : Nat) (hmono : StopMono sig)
    (hk : sig k = true) :
    ∀ ws a c, (ruleOuter hash tn sig dur ws a c).1.attempts ≤ a + (k - c)
  | [], a, c => by
      simp [ruleOuter]
  | w :: ws, a, c => by
      cases hs : sig c
      · have hck : c < k := by
          rcases Nat.lt_or_ge c k with hlt | hge
          · exact hlt
          · have := hmono k c hge hk
            rw [this] at hs
            simp at hs
        rcases hinner : ruleInner hash tn sig dur (generateMutations w) a
          (c + 1) with ⟨ro, aN, cN⟩
        have hin := ruleInner_stop_le hash tn sig dur k hmono hk
          (generateMutations w) a (c + 1) aN cN (by rw [hinner])
        cases ro with
        | some r =>
            have hra : r.attempts = aN :=
              ruleInner_out_attempts hash tn sig dur (generateMutations w)
                a (c + 1) r aN cN hinner
            simp [ruleOuter, hs, hinner, hra]
            omega
        | none =>
            have := ruleOuter_stop_le hash tn sig dur k hmono hk ws aN cN
            simp [ruleOuter, hs, hinner]
            omega
      · simp [ruleOuter, hs]

/-- C8: under any monotone stop-flag history that reads true at read `k`
(`stop()` was called), each engine makes no further attempt once the flag is
seen — the attempt count is bounded by the index of the first true read,
checked per candidate for Dictionary and Brute-Force and in both the
per-word and per-mutation loops for Rule-Based — and the attempt count never
exceeds the total number of candidates. -/
theorem stop_bounds_attempts (sig : Nat → Bool) (k : Nat)
    (hmono : StopMono sig) (hk : sig k = true)
    (hash : String → Option String) (dur : ℚ) (target : String)
    (words : List String) (keywords : List String) (charset : List Char)
    (minLen maxLen : Nat) :
    ((wordlistCrackHash hash sig dur target (some words) keywords).1.attempts
        ≤ k ∧
      (wordlistCrackHash hash sig dur target (some words) keywords).1.attempts
        ≤ (orderedWords keywords words).length) ∧
    ((bruteForceCrackHash hash sig dur target charset minLen
          maxLen).1.attempts ≤ k ∧
      (bruteForceCrackHash hash sig dur target charset minLen
          maxLen).1.attempts
        ≤ (bruteCandidates charset minLen maxLen).length) ∧
    ((ruleCrackHash hash sig dur target (some words) keywords).attempts
        ≤ k ∧
      (ruleCrackHash hash sig dur target (some words) keywords).attempts
        ≤ 43 * (orderedWords keywords words).length) := by
  refine ⟨⟨?_, ?_⟩, ⟨?_, ?_⟩, ?_, ?_⟩
  · simpa using wordlistLoop_stop_le hash (normTarget target) sig dur k
      hmono hk (orderedWords keywords words) 0
  · simpa using wordlistLoop_attempts_le hash (normTarget target) sig dur
      (orderedWords keywords words) 0
  · simpa using bruteLoop_stop_le hash (normTarget target) sig dur k
      hmono hk (bruteCandidates charset minLen maxLen) 0
  · simpa using bruteLoop_attempts_le hash (normTarget target) sig dur
      (bruteCandidates charset minLen maxLen) 0
  · simpa using ruleOuter_stop_le hash (normTarget target) sig dur k
      hmono hk (orderedWords keywords words) 0 0
  · simpa using ruleOuter_attempts_le hash (normTarget target) sig dur
      (orderedWords keywords words) 0 0

/-- C8 witness: a stop flag that reads true from the very first read halts
every engine with zero attempts. -/
theorem stop_bounds_attempts_witness :
    StopMono (fun _ => true) ∧ (fun _ => true) 0 = true ∧
    ((wordlistCrackHash (fun w => some w) (fun _ => true) 1 "z"
        (some ["ab"]) []).1.attempts ≤ 0 ∧
      (ruleCrackHash (fun w => some w) (fun _ => true) 1 "z"
        (some ["ab"]) []).attempts ≤ 0) :=
  ⟨fun _ _ _ h => h, rfl,
    ((stop_bounds_attempts (fun _ => true) 0 (fun _ _ _ h => h) rfl
        (fun w => some w) 1 "z" ["ab"] [] ['a'] 1 1).1).1,
    ((stop_bounds_attempts (fun _ => true) 0 (fun _ _ _ h => h) rfl
        (fun w => some w) 1 "z" ["ab"] [] ['a'] 1 1).2.2).1⟩

/-! ## Brute-force enumeration lemmas and claim C1 -/

theorem pyProduct_mem_length (charset : List Char) :
    ∀ n l, l ∈ pyProduct charset n → l.length = n
  | 0, l, hl => by
      simp [pyProduct] at hl
      simp [hl]
  | n + 1, l, hl => by
      rw [pyProduct] at hl
      rcases List.mem_flatMap.mp hl with ⟨c, _, hml⟩
      rcases List.mem_map.mp hml with ⟨t, ht, rfl⟩
      simp [pyProduct_mem_length charset n t ht]

theorem pairwise_indexOf_lt :
    ∀ cs : List Char, cs.Nodup →
      cs.Pairwise (fun a b => cs.indexOf a < cs.indexOf b)
  | [], _ => List.Pairwise.nil
  | c :: rest, hnd => by
      have hcr : c ∉ rest := (List.nodup_cons.mp hnd).1
      have hrest := pairwise_indexOf_lt rest (List.nodup_cons.mp hnd).2
      refine List.Pairwise.cons ?_ ?_
      · intro b hb
        have hbc : c ≠ b := fun h => hcr (h ▸ hb)
        rw [List.indexOf_cons_self, List.indexOf_cons_ne _ hbc]
        exact Nat.succ_pos _
      · refine hrest.imp_of_mem ?_
        intro a b ha hb hab
        have hac : c ≠ a := fun h => hcr (h ▸ ha)
        have hbc : c ≠ b := fun h => hcr (h ▸ hb)
        rw [List.indexOf_cons_ne _ hac, List.indexOf_cons_ne _ hbc]
        exact Nat.succ_lt_succ hab

theorem pyProduct_pairwise_lex (charset : List Char) (hnd : charset.Nodup) :
    ∀ n, (pyProduct charset n).Pairwise
      (List.Lex (fun a b => charset.indexOf a < charset.indexOf b))
  | 0 => by simp [pyProduct]
  | n + 1 => by
      have ih := pyProduct_pairwise_lex charset hnd n
      rw [pyProduct, List.pairwise_flatMap]
      constructor
      · intro c _
        rw [List.pairwise_map]
        exact ih.imp (fun h => List.Lex.cons h)
      · refine (pairwise_indexOf_lt charset hnd).imp ?_
        intro a b hab x hx y hy
        rcases List.mem_map.mp hx with ⟨s, _, rfl⟩
        rcases List.mem_map.mp hy with ⟨t, _, rfl⟩
        exact List.Lex.rel hab

theorem bruteCandidates_pairwise (charset : List Char) (hnd : charset.Nodup)
    (minLen maxLen : Nat) :
    (bruteCandidates charset minLen maxLen).Pairwise (charsetLt charset) := by
  unfold bruteCandidates
  rw [List.pairwise_flatMap]
  constructor
  · intro len _
    rw [List.pairwise_map]
    refine (pyProduct_pairwise_lex charset hnd len).imp_of_mem ?_
    intro s t hs ht hlex
    refine Or.inr ⟨?_, hlex⟩
    show s.length = t.length
    rw [pyProduct_mem_length charset len s hs,
      pyProduct_mem_length charset len t ht]
  · refine (List.pairwise_lt_range' minLen (maxLen + 1 - minLen)).imp ?_
    intro l1 l2 hlt x hx y hy
    rcases List.mem_map.mp hx with ⟨s, hs, rfl⟩
    rcases List.mem_map.mp hy with ⟨t, ht, rfl⟩
    refine Or.inl ?_
    show s.length < t.length
    rw [pyProduct_mem_length charset l1 s hs,
      pyProduct_mem_length charset l2 t ht]
    exact hlt

theorem bruteLoop_trace_isPrefix (hash : String → Option String)
    (tn : String) (sig : Nat → Bool) (dur : ℚ) :
    ∀ cs a, (bruteLoop hash tn sig dur cs a).2 <+: cs
  | [], a => by simp [bruteLoop]
  | w :: ws, a => by
      cases hs : sig a
      · cases hm : hash w == some tn
        · have := bruteLoop_trace_isPrefix hash tn sig dur ws (a + 1)
          simp only [bruteLoop, hs, hm]
          simp only [Bool.false_eq_true, if_false]
          exact List.cons_prefix_cons.mpr ⟨rfl, this⟩
        · simp only [bruteLoop, hs, hm]
          simp only [Bool.false_eq_true, if_false, if_true]
          exact List.cons_prefix_cons.mpr ⟨rfl, List.nil_prefix⟩
      · simp [bruteLoop, hs]

theorem bruteLoop_unfound_exhausts (hash : String → Option String)
    (tn : String) (dur : ℚ) :
    ∀ cs a,
      (bruteLoop hash tn (fun _ => false) dur cs a).1.found = false →
        (bruteLoop hash tn (fun _ => false) dur cs a).2 = cs ∧
        (bruteLoop hash tn (fun _ => false) dur cs a).1.attempts
          = a + cs.length
  | [], a, _ => by simp [bruteLoop]
  | w :: ws, a, hf => by
      cases hm : hash w == some tn
      · have hf2 : (bruteLoop hash tn (fun _ => false) dur ws
            (a + 1)).1.found = false := by
          simpa [bruteLoop, hm] using hf
        have := bruteLoop_unfound_exhausts hash tn dur ws (a + 1) hf2
        simp [bruteLoop, hm, this.1, this.2]
        omega
      · simp [bruteLoop, hm] at hf

/-- C1: brute force enumerates the length range as increasing outer loop
and, within one length, candidates in lexicographic order of the charset
(for a duplicate-free charset, which is what makes this order well
defined): the candidates actually hashed form a prefix of
`bruteCandidates`, all of it when nothing matches, and `bruteCandidates` is
strictly sorted by length and then by charset-position.  In particular, for
charset `"ab"`, lengths 1..2 and a target that is the digest of `"ba"`
under a collision-free digest function, the run hashes exactly
`"a", "b", "aa", "ab", "ba"` in that order and returns `found = True`,
`password = "ba"`, `attempts = 5`. -/
theorem brute_force_enumeration_order (charset : List Char)
    (hnd : charset.Nodup) (hash : String → Option String) (dur : ℚ)
    (target : String) (minLen maxLen : Nat) :
    ((bruteForceCrackHash hash (fun _ => false) dur target charset minLen
        maxLen).2 <+: bruteCandidates charset minLen maxLen) ∧
    ((bruteForceCrackHash hash (fun _ => false) dur target charset minLen
        maxLen).1.found = false →
      (bruteForceCrackHash hash (fun _ => false) dur target charset minLen
        maxLen).2 = bruteCandidates charset minLen maxLen) ∧
    (bruteCandidates charset minLen maxLen).Pairwise (charsetLt charset) ∧
    (∀ (h2 : String → Option String) (t : String),
      (∀ x y, h2 x = h2 y → x = y) → h2 "ba" = some t → normTarget t = t →
      (bruteForceCrackHash h2 (fun _ => false) dur t ['a', 'b'] 1 2).2
          = ["a", "b", "aa", "ab", "ba"] ∧
      (bruteForceCrackHash h2 (fun _ => false) dur t ['a', 'b'] 1 2).1.found
          = true ∧
      (bruteForceCrackHash h2 (fun _ => false) dur t
          ['a', 'b'] 1 2).1.password = some "ba" ∧
      (bruteForceCrackHash h2 (fun _ => false) dur t
          ['a', 'b'] 1 2).1.attempts = 5) := by
  refine ⟨?_, ?_, bruteCandidates_pairwise charset hnd minLen maxLen, ?_⟩
  · exact bruteLoop_trace_isPrefix hash _ _ dur _ 0
  · intro hf
    exact (bruteLoop_unfound_exhausts hash _ dur _ 0 hf).1
  · intro h2 t hinj hba hnt
    have hne : ∀ w : String, w ≠ "ba" → (h2 w == some t) = false := by
      intro w hw
      refine beq_eq_false_iff_ne.mpr ?_
      intro he
      exact hw (hinj w "ba" (he.trans hba.symm))
    have hyes : (h2 "ba" == some t) = true := beq_iff_eq.mpr hba
    have hcand : bruteCandidates ['a', 'b'] 1 2
        = ["a", "b", "aa", "ab", "ba", "bb"] := by decide
    unfold bruteForceCrackHash
    rw [hnt, hcand]
    simp [bruteLoop, hne "a" (by decide), hne "b" (by decide),
      hne "aa" (by decide), hne "ab" (by decide), hyes]

/-- C1 witness: the claim instantiated on a concrete injective model digest
(the identity map), where the digest of `"ba"` is `"ba"` itself. -/
theorem brute_force_enumeration_order_witness :
    (['a', 'b'] : List Char).Nodup ∧
    ((fun w => some w) : String → Option String) "ba" = some "ba" ∧
    normTarget "ba" = "ba" ∧
    ((bruteForceCrackHash (fun w => some w) (fun _ => false) 1 "ba"
        ['a', 'b'] 1 2).2 = ["a", "b", "aa", "ab", "ba"] ∧
      (bruteForceCrackHash (fun w => some w) (fun _ => false) 1 "ba"
        ['a', 'b'] 1 2).1.found = true ∧
      (bruteForceCrackHash (fun w => some w) (fun _ => false) 1 "ba"
        ['a', 'b'] 1 2).1.password = some "ba" ∧
      (bruteForceCrackHash (fun w => some w) (fun _ => false) 1 "ba"
        ['a', 'b'] 1 2).1.attempts = 5) :=
  ⟨by decide, rfl, by decide,
    (brute_force_enumeration_order ['a', 'b'] (by decide)
        (fun w => some w) 1 "zz" 1 2).2.2.2 (fun w => some w) "ba"
      (fun x y h => Option.some.inj h) rfl (by decide)⟩

/-! ## Keyword priority lemmas and claim C5 -/

theorem mem_kfBaseBlock_length (b c : String) (hc : c ∈ kfBaseBlock b) :
    b.length ≤ c.length := by
  unfold kfBaseBlock at hc
  rcases List.mem_append.mp hc with h | h
  · rcases List.mem_flatMap.mp h with ⟨s, _, hps⟩
    rcases List.mem_map.mp hps with ⟨p, _, rfl⟩
    rw [String.length_append, String.length_append]
    omega
  · rcases List.mem_flatMap.mp h with ⟨sp, _, hmem⟩
    simp only [List.mem_cons, List.mem_singleton, List.not_mem_nil,
      or_false] at hmem
    rcases hmem with rfl | rfl | rfl <;>
      simp only [String.length_append] <;> omega

theorem mem_singleRaw_spring_length (c : String)
    (hc : c ∈ singleRaw ["spring"]) : 6 ≤ c.length := by
  unfold singleRaw at hc
  rcases List.mem_flatMap.mp hc with ⟨kw, hkw, hc2⟩
  have hkw6 : kw = "spring" := by simpa using hkw
  subst hkw6
  rcases List.mem_flatMap.mp hc2 with ⟨b, hb, hcb⟩
  have hb6 : ∀ x ∈ kfBases "spring", 6 ≤ x.length := by decide
  have := mem_kfBaseBlock_length b c hcb
  have := hb6 b hb
  omega

theorem filter_wordlist_eq (kws ws : List String) :
    filter_wordlist kws ws
      = wordLoop kws
          (dedupRun (dedupRun [] [] (generateKeywordMutations kws).1).1
            (dedupRun [] [] (generateKeywordMutations kws).1).2
            (generateKeywordMutations kws).2).1
          (dedupRun (dedupRun [] [] (generateKeywordMutations kws).1).1
            (dedupRun [] [] (generateKeywordMutations kws).1).2
            (generateKeywordMutations kws).2).2
          [] ws := rfl

theorem generateKeywordMutations_fst (kws : List String) :
    (generateKeywordMutations kws).1
      = (dedupRun (dedupRun [] [] (singleRaw kws)).1 [] (multiRaw kws)).2 :=
  rfl

theorem generateKeywordMutations_snd (kws : List String) :
    (generateKeywordMutations kws).2
      = (dedupRun [] [] (singleRaw kws)).2 := rfl

theorem dedupRun_nil_input (s : List String) :
    dedupRun s [] [] = (s, []) := rfl

theorem dedupRun_empty_fst : (dedupRun [] [] ([] : List String)).1 = [] := rfl

theorem dedupRun_empty_snd : (dedupRun [] [] ([] : List String)).2 = [] := rfl

theorem wordLoop_nil (kws seen p r : List String) :
    wordLoop kws seen p r [] = (p, r) := rfl

theorem wordLoop_cons_seen (kws seen p r : List String) (w : String)
    (ws : List String) (h : w ∈ seen) :
    wordLoop kws seen p r (w :: ws) = wordLoop kws seen p r ws := by
  simp [wordLoop, h]

theorem wordLoop_cons_matched (kws seen p r : List String) (w : String)
    (ws : List String) (h1 : w ∉ seen) (h2 : matchesKeyword kws w = true) :
    wordLoop kws seen p r (w :: ws)
      = wordLoop kws (w :: seen) (p ++ [w]) r ws := by
  simp [wordLoop, h1, h2]

theorem wordLoop_cons_other (kws seen p r : List String) (w : String)
    (ws : List String) (h1 : w ∉ seen) (h2 : matchesKeyword kws w = false) :
    wordLoop kws seen p r (w :: ws) = wordLoop kws seen p (r ++ [w]) ws := by
  simp [wordLoop, h1, h2]

/-- Candidates already in the priority queue stay there: the word scan only
appends. -/
theorem wordLoop_priority_mono (kws : List String) (x : String) :
    ∀ ws seen p r, x ∈ p → x ∈ (wordLoop kws seen p r ws).1
  | [], seen, p, r, hx => by
      rw [wordLoop_nil]
      exact hx
  | w :: ws, seen, p, r, hx => by
      by_cases h1 : w ∈ seen
      · rw [wordLoop_cons_seen _ _ _ _ _ _ h1]
        exact wordLoop_priority_mono kws x ws seen p r hx
      · cases hm : matchesKeyword kws w
        · rw [wordLoop_cons_other _ _ _ _ _ _ h1 hm]
          exact wordLoop_priority_mono kws x ws seen p (r ++ [w]) hx
        · rw [wordLoop_cons_matched _ _ _ _ _ _ h1 hm]
          exact wordLoop_priority_mono kws x ws (w :: seen) (p ++ [w]) r
            (List.mem_append_left _ hx)

theorem wordLoop_skip_three (kws seen p : List String) (w1 w2 w3 : String)
    (h1 : w1 ∉ seen) (hm1 : matchesKeyword kws w1 = false)
    (h2 : w2 ∈ seen)
    (h3 : w3 ∉ seen) (hm3 : matchesKeyword kws w3 = false) :
    (wordLoop kws seen p [] [w1, w2, w3]).2 = [w1, w3] := by
  rw [wordLoop_cons_other _ _ _ _ _ _ h1 hm1,
    wordLoop_cons_seen _ _ _ _ _ _ h2,
    wordLoop_cons_other _ _ _ _ _ _ h3 hm3, wordLoop_nil]
  simp

/-- The three-word partition scenario, stated over an abstract deduplicated
single-keyword stream `Q` so that instantiation stays syntactic. -/
theorem filter_wordlist_three (kws Q : List String) (x w1 w2 w3 : String)
    (hg1 : (generateKeywordMutations kws).1 = [])
    (hQ : (generateKeywordMutations kws).2 = Q)
    (hx : x ∈ (dedupRun [] [] Q).2)
    (hw1 : w1 ∉ (dedupRun [] [] Q).1) (hm1 : matchesKeyword kws w1 = false)
    (hw2 : w2 ∈ (dedupRun [] [] Q).1)
    (hw3 : w3 ∉ (dedupRun [] [] Q).1) (hm3 : matchesKeyword kws w3 = false) :
    x ∈ (filter_wordlist kws [w1, w2, w3]).1 ∧
    (filter_wordlist kws [w1, w2, w3]).2 = [w1, w3] := by
  rw [filter_wordlist_eq, hg1, dedupRun_empty_fst, dedupRun_empty_snd, hQ]
  constructor
  · exact wordLoop_priority_mono kws x _ _ _ _ hx
  · exact wordLoop_skip_three kws _ _ w1 w2 w3 hw1 hm1 hw2 hw3 hm3

set_option maxRecDepth 8000 in
/-- C5: with keyword set `{"spring"}` and word list
`["apple", "Spring2024", "xyz"]`, the candidate `"Spring2024"` appears in
the priority sequence produced by `filter_wordlist` — it is a generated
mutation (`capitalize` plus suffix `"2024"`), so the word scan skips it
while the mutation stream has already put it in the priority queue, ahead
of the whole remainder — and `"apple"` and `"xyz"` form the remainder
sequence. -/
theorem keyword_priority_spring_example :
    "Spring2024"
        ∈ (filter_wordlist ["spring"] ["apple", "Spring2024", "xyz"]).1 ∧
    (filter_wordlist ["spring"] ["apple", "Spring2024", "xyz"]).2
        = ["apple", "xyz"] := by
  have hraw : "Spring2024" ∈ singleRaw ["spring"] := by decide
  have hsq : "Spring2024" ∈ (dedupRun [] [] (singleRaw ["spring"])).2 := by
    rcases dedupRun_input_out "Spring2024" (singleRaw ["spring"]) [] []
      hraw with h | h
    · simp at h
    · exact h
  have hs2mem : "Spring2024"
      ∈ (dedupRun [] [] (dedupRun [] [] (singleRaw ["spring"])).2).2 := by
    rcases dedupRun_input_out "Spring2024"
      (dedupRun [] [] (singleRaw ["spring"])).2 [] [] hsq with h | h
    · simp at h
    · exact h
  have hseen : "Spring2024"
      ∈ (dedupRun [] [] (dedupRun [] [] (singleRaw ["spring"])).2).1 :=
    dedupRun_input_seen "Spring2024" _ [] [] hsq
  have hnotseen : ∀ w : String, w.length < 6 →
      w ∉ (dedupRun [] [] (dedupRun [] [] (singleRaw ["spring"])).2).1 := by
    intro w hwlen hw
    rcases dedupRun_seen_src w _ [] [] hw with h | h
    · simp at h
    · rcases dedupRun_out_src w (singleRaw ["spring"]) [] [] h with
        h2 | ⟨h2, _⟩
      · simp at h2
      · have := mem_singleRaw_spring_length w h2
        omega
  have happle : ("apple" : String)
      ∉ (dedupRun [] [] (dedupRun [] [] (singleRaw ["spring"])).2).1 :=
    hnotseen "apple" (by decide)
  have hxyz : ("xyz" : String)
      ∉ (dedupRun [] [] (dedupRun [] [] (singleRaw ["spring"])).2).1 :=
    hnotseen "xyz" (by decide)
  have hma : matchesKeyword ["spring"] "apple" = false := by decide
  have hmx : matchesKeyword ["spring"] "xyz" = false := by decide
  have hm0 : multiRaw ["spring"] = [] := rfl
  have hg1 : (generateKeywordMutations ["spring"]).1 = [] := by
    rw [generateKeywordMutations_fst, hm0, dedupRun_nil_input]
  exact filter_wordlist_three ["spring"]
    ((dedupRun [] [] (singleRaw ["spring"])).2) "Spring2024" "apple"
    "Spring2024" "xyz" hg1 (generateKeywordMutations_snd ["spring"])
    hs2mem happle hma hseen hxyz hmx

end CrackVault
